import Mathlib

/-
Shallow embedding of the changeset CI helper scripts: `scripts/get-tags.js`,
`scripts/get-tags-advanced.js` and the release-creation script
(`createReleases`, `extractChangelogForVersion`, `escapeRegex`,
`isPrerelease`).  JavaScript strings are modelled as `List Char`; regular
expressions used by the scripts are embedded by their matching semantics on
such lists.
-/

/-- Characters matched by the JavaScript regex class `\s` (which is also the
set stripped by `String.prototype.trim`). -/
def jsWhitespace (c : Char) : Bool :=
  c == '\t' || c == '\n' || c == '\x0B' || c == '\x0C' || c == '\r' || c == ' ' ||
  c == '\u00A0' || c == '\u1680' || c == '\u2000' || c == '\u2001' ||
  c == '\u2002' || c == '\u2003' || c == '\u2004' || c == '\u2005' ||
  c == '\u2006' || c == '\u2007' || c == '\u2008' || c == '\u2009' ||
  c == '\u200A' || c == '\u2028' || c == '\u2029' || c == '\u202F' ||
  c == '\u205F' || c == '\u3000' || c == '\uFEFF'

/-- JavaScript `String.prototype.trim`: removes leading and trailing
whitespace. -/
def jsTrim (l : List Char) : List Char :=
  ((l.dropWhile jsWhitespace).reverse.dropWhile jsWhitespace).reverse

/-- `startsWithL l p` holds when `p` is an initial segment of `l`. -/
def startsWithL : List Char → List Char → Bool
  | _, [] => true
  | [], _ :: _ => false
  | c :: l, d :: p => c == d && startsWithL l p

/-- `containsSub l pat` holds when `pat` occurs contiguously inside `l`;
this is the semantics of `String.prototype.includes` and of an unanchored
regex search for a literal pattern. -/
def containsSub : List Char → List Char → Bool
  | [], pat => startsWithL [] pat
  | c :: t, pat => startsWithL (c :: t) pat || containsSub t pat

/-- JavaScript line terminators, the characters NOT matched by `.` in a
regex without the `s` flag. -/
def isLineTerm (c : Char) : Bool :=
  c == '\n' || c == '\r' || c == '\u2028' || c == '\u2029'

/-- `content.split('\n')` on a JavaScript string. -/
def splitOnNL : List Char → List (List Char)
  | [] => [[]]
  | c :: rest =>
    if c == '\n' then [] :: splitOnNL rest
    else match splitOnNL rest with
      | [] => [[c]]
      | l :: ls => (c :: l) :: ls

/-- `lines.join('\n')` on a JavaScript array of strings. -/
def joinNL : List (List Char) → List Char
  | [] => []
  | [x] => x
  | x :: y :: ys => x ++ '\n' :: joinNL (y :: ys)

/-- ASCII lower-casing of one character, the case folding performed by a
non-unicode case-insensitive JavaScript regex on ASCII letters. -/
def asciiLower (c : Char) : Char :=
  if c.toNat ≥ 65 && c.toNat ≤ 90 then Char.ofNat (c.toNat + 32) else c

/-
`extractChangelogForVersion` from the release-creation script.
-/

/-- `line.match(/^##\s+/)`: the generic heading-marker test that closes a
collecting section. -/
def isHeading : List Char → Bool
  | c1 :: c2 :: c3 :: _ => c1 == '#' && c2 == '#' && jsWhitespace c3
  | _ => false

/-- After the version text of the heading pattern `\[?V\]?`, the closing
`\]?` is optional and never constrains the match, so only the optional
opening bracket matters: the remainder starts with `V` or with `[V`. -/
def optBracket (r v : List Char) : Bool :=
  startsWithL r v ||
    (match r with
      | c :: t => c == '[' && startsWithL t v
      | [] => false)

/-- The part of `^##\s+\[?V\]?` after the two marker characters: at least
one whitespace character, then the optionally bracketed version text.  `V`
is matched literally because `escapeRegex` escapes every regex
metacharacter in the version string. -/
def headerTail (v : List Char) : List Char → Bool
  | [] => false
  | c :: rest => jsWhitespace c && (optBracket rest v || headerTail v rest)

/-- `line.match(new RegExp('^##\\s+\\[?' + escapeRegex(version) + '\\]?'))`:
the version-heading test that opens the collecting state. -/
def matchVersionHeader (line version : List Char) : Bool :=
  match line with
  | c1 :: c2 :: rest => c1 == '#' && c2 == '#' && headerTail version rest
  | _ => false

/-- The line-scanning loop of `extractChangelogForVersion`: returns the
`releaseNotes` array it accumulates.  A line matching the version heading
sets `inVersionSection` and is skipped; afterwards a generic heading breaks
the loop; while inside the section every other line is collected. -/
def collectLoop (version : List Char) : List (List Char) → Bool → List (List Char)
  | [], _ => []
  | line :: rest, inSec =>
    if matchVersionHeader line version then collectLoop version rest true
    else if inSec && isHeading line then []
    else if inSec then line :: collectLoop version rest inSec
    else collectLoop version rest inSec

/-- The fallback string `` `Release ${version}` `` returned when the joined
and trimmed notes are empty. -/
def releaseFallback (version : List Char) : List Char :=
  "Release ".toList ++ version

/-- `extractChangelogForVersion` on an already split list of lines:
`releaseNotes.join('\n').trim() || 'Release ' + version`. -/
def extractLines (lines : List (List Char)) (version : List Char) : List Char :=
  let trimmed := jsTrim (joinNL (collectLoop version lines false))
  if trimmed = [] then releaseFallback version else trimmed

/-- `extractChangelogForVersion` on the changelog file content, which the
source splits on `'\n'` before scanning. -/
def extractChangelogForVersion (content version : List Char) : List Char :=
  extractLines (splitOnNL content) version

/-
Tag parsing and tag processing from `createReleases`.
-/

/-- Core of `tag.match(/^(.+)@(.+)$/)`: the greedy first group makes the
regex split at the last `@` admitting a nonempty suffix; the name group may
be empty only at the outermost position, which the wrapper rejects. -/
def parseCore : List Char → Option (List Char × List Char)
  | [] => none
  | c :: rest =>
    match parseCore rest with
    | some (n, v) => some (c :: n, v)
    | none => if c == '@' && !rest.isEmpty then some ([], rest) else none

/-- `tag.match(/^(.+)@(.+)$/)` returning the two capture groups.  `.` does
not match line terminators, both groups must be nonempty, and backtracking
on the greedy first group selects the last viable `@`. -/
def parseTag (tag : List Char) : Option (List Char × List Char) :=
  if tag.any isLineTerm then none
  else match parseCore tag with
    | some (n, v) => if n.isEmpty then none else some (n, v)
    | none => none

/-- A workspace package: the parsed `name`/`version` fields of one
discovered `package.json`, together with its directory (the
`path.dirname` of the manifest path, where `CHANGELOG.md` is looked up). -/
structure Pkg where
  name : List Char
  version : List Char
  dir : List Char
deriving DecidableEq

/-- The predicate of `packagePaths.find(...)`:
`pkg.name === packageName && pkg.version === version`. -/
def matchPred (packageName version : List Char) (p : Pkg) : Bool :=
  p.name == packageName && p.version == version

/-- The payload passed to `octokit.rest.repos.createRelease`. -/
structure Release where
  tagName : List Char
  name : List Char
  body : List Char
  draft : Bool
  prerelease : Bool
deriving DecidableEq

/-- Result of one `createRelease` API call: success with a URL, or an error
carrying an HTTP status and a message. -/
inductive ApiResult where
  | ok (url : List Char)
  | err (status : Nat) (message : List Char)
deriving DecidableEq

/-- What the per-tag `try/catch` around `createRelease` does with the API
result: success logs the URL; status 422 with a message containing
`already_exists` logs a warning; anything else logs an error.  No branch
rethrows or exits. -/
inductive ReleaseOutcome where
  | created (url : List Char)
  | alreadyExists
  | failed (status : Nat) (message : List Char)
deriving DecidableEq

/-- `isPrerelease`: tests `version` against the case-insensitive regex
`-(alpha|beta|rc|pre)`, an unanchored search for one of the four markers
immediately preceded by a hyphen. -/
def isPrerelease (version : List Char) : Bool :=
  ["alpha".toList, "beta".toList, "rc".toList, "pre".toList].any
    (fun m => containsSub (version.map asciiLower) ('-' :: m))

/-- The inner `catch` of the release loop:
`error.status === 422 && error.message.includes('already_exists')` is the
warning branch, everything else the error branch. -/
def handleReleaseResult : ApiResult → ReleaseOutcome
  | .ok url => .created url
  | .err status message =>
    if status == 422 && containsSub message ("already_exists".toList) then
      .alreadyExists
    else .failed status message

/-- `` `Release ${version} of ${packageName}` ``, the notes used when no
`CHANGELOG.md` exists next to the matched manifest. -/
def defaultNotes (packageName version : List Char) : List Char :=
  "Release ".toList ++ version ++ " of ".toList ++ packageName

/-- Outcome of one iteration of the tag loop in `createReleases`. -/
inductive TagOutcome where
  | skippedNoParse
  | skippedNoPackage (packageName version : List Char)
  | released (rel : Release) (out : ReleaseOutcome)
deriving DecidableEq

/-- One iteration of the tag loop of `createReleases`.  `changelogOf` maps a
package directory to the content of its `CHANGELOG.md` when that file
exists (`fs.existsSync` + `fs.readFileSync`); `api` is the
`createRelease` endpoint. -/
def processTag (pkgs : List Pkg) (changelogOf : List Char → Option (List Char))
    (api : Release → ApiResult) (tag : List Char) : TagOutcome :=
  match parseTag tag with
  | none => .skippedNoParse
  | some (packageName, version) =>
    match pkgs.find? (matchPred packageName version) with
    | none => .skippedNoPackage packageName version
    | some pkg =>
      let releaseNotes :=
        match changelogOf pkg.dir with
        | some content => extractChangelogForVersion content version
        | none => defaultNotes packageName version
      let rel : Release :=
        { tagName := tag
          name := packageName ++ ' ' :: version
          body := releaseNotes
          draft := false
          prerelease := isPrerelease version }
      .released rel (handleReleaseResult (api rel))

/-- `createReleases` after the git queries: missing `GITHUB_TOKEN` exits
with code 1 before any tag is processed; otherwise every tag of the current
commit is processed in order and nothing in the loop terminates the
process. -/
def createReleasesRun (token : Option (List Char)) (tags : List (List Char))
    (pkgs : List Pkg) (changelogOf : List Char → Option (List Char))
    (api : Release → ApiResult) : Except Nat (List TagOutcome) :=
  match token with
  | none => .error 1
  | some _ => .ok (tags.map (processTag pkgs changelogOf api))

/-
`getAllTags` from `scripts/get-tags.js`.
-/

/-- Results of the three `execSync` git queries made by `getAllTags`, each
either raw stdout or a thrown error message. -/
structure GitEnv where
  tagList : Except (List Char) (List Char)
  revParse : Except (List Char) (List Char)
  pointsAt : List Char → Except (List Char) (List Char)

/-- The JSON object printed by `getAllTags`. -/
structure TagsResult where
  currentTag : Option (List Char)
  allTags : List (List Char)
  tagsForCurrentCommit : List (List Char)
  currentCommit : List Char
  triggeredBy : List Char
deriving DecidableEq

/-- `output.trim().split('\n').filter(tag => tag.length > 0)`. -/
def splitTags (out : List Char) : List (List Char) :=
  (splitOnNL (jsTrim out)).filter (fun t => t.length > 0)

/-- `x || null` on an optional environment string: the empty string is
falsy. -/
def jsOrNone : Option (List Char) → Option (List Char)
  | some s => if s.isEmpty then none else some s
  | none => none

/-- `x || 'unknown'` on an optional environment string. -/
def jsOrUnknown : Option (List Char) → List Char
  | some s => if s.isEmpty then "unknown".toList else s
  | none => "unknown".toList

/-- `getAllTags` from `scripts/get-tags.js`: the three git queries run in
order inside one `try`; any throw reaches the `catch`, which reports the
message and calls `process.exit(1)` (modelled as `.error 1`). -/
def getAllTags (env : GitEnv) (githubRefName githubEventName : Option (List Char)) :
    Except Nat TagsResult :=
  match env.tagList with
  | .error _ => .error 1
  | .ok allTagsOutput =>
    match env.revParse with
    | .error _ => .error 1
    | .ok rawCommit =>
      let currentCommit := jsTrim rawCommit
      match env.pointsAt currentCommit with
      | .error _ => .error 1
      | .ok pointsAtOutput =>
        .ok
          { currentTag := jsOrNone githubRefName
            allTags := splitTags allTagsOutput
            tagsForCurrentCommit := splitTags pointsAtOutput
            currentCommit := currentCommit
            triggeredBy := jsOrUnknown githubEventName }

/-
The filter/limit pipeline of `getAllTagsAdvanced` and the `--limit`
argument of `parseArgs` from `scripts/get-tags-advanced.js`.
-/

/-- A JavaScript number as produced by `parseInt`: either `NaN` or an
integer. -/
inductive JsNumber where
  | nan
  | int (n : Int)
deriving DecidableEq

/-- Truthiness of a `JsNumber`: `NaN` and `0` are falsy. -/
def jsTruthy : JsNumber → Bool
  | .nan => false
  | .int n => !(n == 0)

/-- `x > 0` on a `JsNumber`; false for `NaN`. -/
def jsPos : JsNumber → Bool
  | .nan => false
  | .int n => decide (0 < n)

/-- The count taken by `allTags.slice(0, limit)` for a positive limit. -/
def jsToNat : JsNumber → Nat
  | .nan => 0
  | .int n => n.toNat

/-- `if (options.filter) { allTags = allTags.filter(tag => regex.test(tag)) }`;
the compiled regex test is abstracted as a boolean predicate. -/
def applyFilter : Option (List Char → Bool) → List (List Char) → List (List Char)
  | some p, tags => tags.filter p
  | none, tags => tags

/-- `if (options.limit && options.limit > 0) { allTags = allTags.slice(0, options.limit) }`. -/
def applyLimit (limit : Option JsNumber) (tags : List (List Char)) : List (List Char) :=
  match limit with
  | none => tags
  | some l => if jsTruthy l && jsPos l then tags.take (jsToNat l) else tags

/-- The `allTags` pipeline of `getAllTagsAdvanced`: the filter is applied
first, then the limit. -/
def getAllTagsAdvancedTags (tags : List (List Char))
    (filter : Option (List Char → Bool)) (limit : Option JsNumber) :
    List (List Char) :=
  applyLimit limit (applyFilter filter tags)

/-- Decimal digit value, for `parseInt`. -/
def digit10 (c : Char) : Option Nat :=
  if c.toNat ≥ 48 && c.toNat ≤ 57 then some (c.toNat - 48) else none

/-- Hexadecimal digit value, for `parseInt` with a `0x` prefix. -/
def digit16 (c : Char) : Option Nat :=
  if c.toNat ≥ 48 && c.toNat ≤ 57 then some (c.toNat - 48)
  else if c.toNat ≥ 97 && c.toNat ≤ 102 then some (c.toNat - 97 + 10)
  else if c.toNat ≥ 65 && c.toNat ≤ 70 then some (c.toNat - 65 + 10)
  else none

/-- Longest digit run at the head of the list: accumulated value and number
of digits consumed. -/
def takeDigits (digit : Char → Option Nat) (base : Nat) :
    List Char → Nat → Nat → Nat × Nat
  | [], acc, count => (acc, count)
  | c :: rest, acc, count =>
    match digit c with
    | some d => takeDigits digit base rest (acc * base + d) (count + 1)
    | none => (acc, count)

/-- JavaScript `parseInt(s)` with no radix argument, as used for
`--limit`: strip leading whitespace, optional sign, optional `0x`/`0X`
meaning hexadecimal, then the longest digit run; no digits means `NaN`. -/
def parseIntJs (s : List Char) : JsNumber :=
  let t := s.dropWhile jsWhitespace
  let signAndRest : Int × List Char :=
    match t with
    | '-' :: r => (-1, r)
    | '+' :: r => (1, r)
    | r => (1, r)
  let baseAndRest : Nat × List Char :=
    match signAndRest.2 with
    | '0' :: 'x' :: r => (16, r)
    | '0' :: 'X' :: r => (16, r)
    | r => (10, r)
  let digit := if baseAndRest.1 == 16 then digit16 else digit10
  let valCount := takeDigits digit baseAndRest.1 baseAndRest.2 0 0
  if valCount.2 == 0 then .nan else .int (signAndRest.1 * (valCount.1 : Int))

/-
`getAllTagsAdvanced` and `execCommand` from `scripts/get-tags-advanced.js`.
-/

/-- `execCommand` from `get-tags-advanced.js`: `execSync(...).trim()` inside
a try/catch that swallows any subprocess failure into the empty string, so
a failing git query is indistinguishable from one with empty output. -/
def execCommand : Except (List Char) (List Char) → List Char
  | .ok out => jsTrim out
  | .error _ => []

/-- Results of the git subprocesses invoked by `getAllTagsAdvanced`: the
`rev-parse HEAD` query, the (sorted) `git tag` listing, and the
`--points-at` query for a given commit. -/
structure GitEnvAdv where
  revParse : Except (List Char) (List Char)
  tagList : Except (List Char) (List Char)
  pointsAt : List Char → Except (List Char) (List Char)

/-- The result object built by `getAllTagsAdvanced` (without the optional
`tagsWithCommits` block of `--include-commits`). -/
structure AdvResult where
  currentTag : Option (List Char)
  allTags : List (List Char)
  tagsForCurrentCommit : List (List Char)
  currentCommit : List Char
  triggeredBy : List Char
deriving DecidableEq

/-- `output ? output.split('\n').filter(tag => tag.length > 0) : []` on the
already trimmed output of `execCommand` (the empty string is falsy). -/
def splitIfNonEmpty (out : List Char) : List (List Char) :=
  if out.isEmpty then [] else (splitOnNL out).filter (fun t => t.length > 0)

/-- `getAllTagsAdvanced` from `get-tags-advanced.js`: current commit, tag
listing (then regex filter, then limit), tags for the current commit.
Every git query goes through `execCommand`, which never throws, so the
surrounding try/catch (whose handler calls `process.exit(1)`) can never
fire on a git failure and the function always returns a normal result. -/
def getAllTagsAdvanced (env : GitEnvAdv) (ref ev : Option (List Char))
    (filter : Option (List Char → Bool)) (limit : Option JsNumber) :
    Except Nat AdvResult :=
  let currentCommit := execCommand env.revParse
  let allTags :=
    getAllTagsAdvancedTags (splitIfNonEmpty (execCommand env.tagList)) filter limit
  let tagsForCurrentCommit :=
    splitIfNonEmpty (execCommand (env.pointsAt currentCommit))
  .ok { currentTag := jsOrNone ref, allTags := allTags,
        tagsForCurrentCommit := tagsForCurrentCommit,
        currentCommit := currentCommit, triggeredBy := jsOrUnknown ev }

/-
Helper lemmas.
-/

/-- The empty pattern is an initial segment of everything. -/
theorem startsWithL_nil (l : List Char) : startsWithL l [] = true := by
  cases l <;> rfl

/-- A list starts with itself followed by anything. -/
theorem startsWithL_append (v s : List Char) : startsWithL (v ++ s) v = true := by
  induction v with
  | nil => exact startsWithL_nil s
  | cons c v ih => simp [startsWithL, ih]

/-- `startsWithL` decides the initial-segment relation. -/
theorem startsWithL_iff (p l : List Char) : startsWithL l p = true ↔ ∃ t, l = p ++ t := by
  induction p generalizing l with
  | nil =>
    simp [startsWithL]
  | cons d p ih =>
    cases l with
    | nil => simp [startsWithL]
    | cons c l =>
      constructor
      · intro h
        rw [startsWithL, Bool.and_eq_true, beq_iff_eq] at h
        obtain ⟨rfl, h2⟩ := h
        obtain ⟨t, rfl⟩ := (ih l).mp h2
        exact ⟨t, rfl⟩
      · rintro ⟨t, ht⟩
        injection ht with hc hl
        rw [startsWithL, Bool.and_eq_true, beq_iff_eq]
        exact ⟨hc, (ih l).mpr ⟨t, hl⟩⟩

/-- `containsSub` decides the contiguous-substring relation. -/
theorem containsSub_iff (l pat : List Char) :
    containsSub l pat = true ↔ ∃ s t, l = s ++ pat ++ t := by
  induction l with
  | nil =>
    rw [containsSub, startsWithL_iff]
    constructor
    · rintro ⟨t, ht⟩
      exact ⟨[], t, by simpa using ht⟩
    · rintro ⟨s, t, ht⟩
      have h2 : s ++ (pat ++ t) = [] := by simpa [List.append_assoc] using ht.symm
      obtain ⟨h3, h4⟩ := List.append_eq_nil.mp h2
      obtain ⟨h5, h6⟩ := List.append_eq_nil.mp h4
      exact ⟨[], by simp [h5]⟩
  | cons c l ih =>
    rw [containsSub, Bool.or_eq_true, startsWithL_iff, ih]
    constructor
    · rintro (⟨t, ht⟩ | ⟨s, t, ht⟩)
      · exact ⟨[], t, by simpa using ht⟩
      · exact ⟨c :: s, t, by simp [ht]⟩
    · rintro ⟨s, t, ht⟩
      cases s with
      | nil => exact Or.inl ⟨t, by simpa using ht⟩
      | cons a s =>
        injection ht with h1 h2
        exact Or.inr ⟨s, t, h2⟩

/-- A line that opens the collecting state is in particular a generic
heading line. -/
theorem matchVH_isHeading (line v : List Char) (h : matchVersionHeader line v = true) :
    isHeading line = true := by
  cases line with
  | nil => exact absurd h (by simp [matchVersionHeader])
  | cons c1 rest1 =>
    cases rest1 with
    | nil => exact absurd h (by simp [matchVersionHeader])
    | cons c2 rest =>
      simp only [matchVersionHeader, Bool.and_eq_true] at h
      obtain ⟨⟨h1, h2⟩, h3⟩ := h
      cases rest with
      | nil => exact absurd h3 (by simp [headerTail])
      | cons c3 rest' =>
        simp only [headerTail, Bool.and_eq_true] at h3
        simp only [isHeading, Bool.and_eq_true]
        exact ⟨⟨h1, h2⟩, h3.1⟩

/-- A line that is not a generic heading line never opens the collecting
state. -/
theorem matchVH_false (line v : List Char) (h : isHeading line = false) :
    matchVersionHeader line v = false := by
  cases hm : matchVersionHeader line v
  · rfl
  · rw [matchVH_isHeading line v hm] at h
    exact absurd h (by simp)

/-- If no line opens the collecting state, nothing is collected. -/
theorem collectLoop_closed (v : List Char) (lines : List (List Char))
    (h : ∀ l ∈ lines, matchVersionHeader l v = false) :
    collectLoop v lines false = [] := by
  induction lines with
  | nil => rfl
  | cons line rest ih =>
    have h1 := h line (List.mem_cons_self _ _)
    rw [collectLoop, h1]
    simp only [Bool.false_eq_true, if_false, Bool.false_and, if_false]
    exact ih (fun l hl => h l (List.mem_cons_of_mem _ hl))

/-- Inside an open section, collection gathers every non-heading line
verbatim and stops (exclusively) at the next heading. -/
theorem collectLoop_section (v h2line : List Char) (c1 c2 : List (List Char))
    (hc1 : ∀ l ∈ c1, matchVersionHeader l v = false ∧ isHeading l = false)
    (hh2 : matchVersionHeader h2line v = false) (hh2' : isHeading h2line = true) :
    collectLoop v (c1 ++ h2line :: c2) true = c1 := by
  induction c1 with
  | nil => simp [collectLoop, hh2, hh2']
  | cons l c1 ih =>
    obtain ⟨hm, hh⟩ := hc1 l (List.mem_cons_self _ _)
    rw [List.cons_append, collectLoop, hm]
    simp only [Bool.false_eq_true, if_false, hh, Bool.and_false, if_true]
    rw [ih (fun x hx => hc1 x (List.mem_cons_of_mem _ hx))]

/-- Splitting a newline-free string yields that single line. -/
theorem splitOnNL_no (x : List Char) (hx : '\n' ∉ x) : splitOnNL x = [x] := by
  induction x with
  | nil => rfl
  | cons c r ih =>
    have hc : (c == '\n') = false := by
      simp only [beq_eq_false_iff_ne, ne_eq]
      intro hcc
      exact hx (hcc ▸ List.mem_cons_self _ _)
    rw [splitOnNL, hc]
    simp only [Bool.false_eq_true, if_false]
    rw [ih (fun h => hx (List.mem_cons_of_mem _ h))]

/-- Splitting peels one newline-free line off the front. -/
theorem splitOnNL_append (x r : List Char) (hx : '\n' ∉ x) :
    splitOnNL (x ++ '\n' :: r) = x :: splitOnNL r := by
  induction x with
  | nil => simp [splitOnNL]
  | cons c xs ih =>
    have hc : (c == '\n') = false := by
      simp only [beq_eq_false_iff_ne, ne_eq]
      intro hcc
      exact hx (hcc ▸ List.mem_cons_self _ _)
    rw [List.cons_append, splitOnNL, hc]
    simp only [Bool.false_eq_true, if_false]
    rw [ih (fun h => hx (List.mem_cons_of_mem _ h))]

/-- `split('\n')` is a left inverse of `join('\n')` on nonempty lists of
newline-free lines. -/
theorem splitOnNL_joinNL : ∀ ls : List (List Char), ls ≠ [] →
    (∀ l ∈ ls, '\n' ∉ l) → splitOnNL (joinNL ls) = ls
  | [], hne, _ => absurd rfl hne
  | [x], _, h => by
      rw [show joinNL [x] = x from rfl, splitOnNL_no x (h x (List.mem_cons_self _ _))]
  | x :: y :: ys, _, h => by
      rw [show joinNL (x :: y :: ys) = x ++ '\n' :: joinNL (y :: ys) from rfl,
        splitOnNL_append _ _ (h x (List.mem_cons_self _ _)),
        splitOnNL_joinNL (y :: ys) (by simp) (fun l hl => h l (List.mem_cons_of_mem _ hl))]

/-- Soundness of the regex core: a successful split reassembles the input
around an `@` and the version group is nonempty. -/
theorem parseCore_sound : ∀ l n v : List Char, parseCore l = some (n, v) →
    l = n ++ '@' :: v ∧ v ≠ [] := by
  intro l
  induction l with
  | nil => intro n v h; exact absurd h (by simp [parseCore])
  | cons c rest ih =>
    intro n v h
    cases hr : parseCore rest with
    | some p =>
      obtain ⟨n2, v2⟩ := p
      simp only [parseCore, hr, Option.some.injEq, Prod.mk.injEq] at h
      obtain ⟨h1, h2⟩ := h
      obtain ⟨hd, hv⟩ := ih n2 v2 hr
      subst h1
      subst h2
      exact ⟨by rw [hd]; rfl, hv⟩
    | none =>
      simp only [parseCore, hr] at h
      split at h
      · next hc =>
        rw [Bool.and_eq_true, beq_iff_eq] at hc
        obtain ⟨hceq, hrest⟩ := hc
        simp only [Option.some.injEq, Prod.mk.injEq] at h
        obtain ⟨h1, h2⟩ := h
        subst h1
        subst h2
        subst hceq
        refine ⟨rfl, ?_⟩
        intro hv
        rw [hv] at hrest
        exact absurd hrest (by simp)
      · exact absurd h (by simp)

/-- Completeness of the regex core: any viable split point makes the core
succeed. -/
theorem parseCore_ne_none : ∀ s t : List Char, t ≠ [] → parseCore (s ++ '@' :: t) ≠ none := by
  intro s
  induction s with
  | nil =>
    intro t ht h
    rw [List.nil_append] at h
    cases hr : parseCore t with
    | some p => simp [parseCore, hr] at h
    | none =>
      have hc : ('@' == '@' && !t.isEmpty) = true := by
        cases t with
        | nil => exact absurd rfl ht
        | cons a b => rfl
      simp [parseCore, hr, hc] at h
      exact ht h
  | cons c s' ih =>
    intro t ht h
    rw [List.cons_append] at h
    cases hr : parseCore (s' ++ '@' :: t) with
    | some p => simp [parseCore, hr] at h
    | none => exact ih t ht hr

/-- If the core fails, every `@` in the input sits at the very end. -/
theorem parseCore_none (l : List Char) (hl : parseCore l = none) :
    ∀ s t : List Char, l = s ++ '@' :: t → t = [] := by
  intro s t hst
  by_contra hne
  exact parseCore_ne_none s t hne (hst ▸ hl)

/-- Greediness: the version group returned by the core contains an `@` at
most as its final character, i.e. the split happens at the last viable
`@`. -/
theorem parseCore_greedy : ∀ l n v : List Char, parseCore l = some (n, v) →
    ∀ a b : List Char, v = a ++ '@' :: b → b = [] := by
  intro l
  induction l with
  | nil => intro n v h; exact absurd h (by simp [parseCore])
  | cons c rest ih =>
    intro n v h a b hab
    cases hr : parseCore rest with
    | some p =>
      obtain ⟨n2, v2⟩ := p
      simp only [parseCore, hr, Option.some.injEq, Prod.mk.injEq] at h
      obtain ⟨h1, h2⟩ := h
      subst h2
      exact ih n2 v2 hr a b hab
    | none =>
      simp only [parseCore, hr] at h
      split at h
      · simp only [Option.some.injEq, Prod.mk.injEq] at h
        obtain ⟨h1, h2⟩ := h
        subst h2
        exact parseCore_none rest hr a b hab
      · exact absurd h (by simp)

/-- Soundness of `parseTag`: the parsed name and version reassemble to the
tag, both are nonempty, the tag has no line terminators, and the version
keeps an `@` at most as its final character. -/
theorem parseTag_sound (tag n v : List Char) (h : parseTag tag = some (n, v)) :
    tag = n ++ '@' :: v ∧ n ≠ [] ∧ v ≠ [] ∧ tag.any isLineTerm = false ∧
    (∀ a b : List Char, v = a ++ '@' :: b → b = []) := by
  unfold parseTag at h
  split at h
  · exact absurd h (by simp)
  · next hterm =>
    cases hr : parseCore tag with
    | none =>
      simp only [hr] at h
      exact absurd h (by simp)
    | some p =>
      obtain ⟨n2, v2⟩ := p
      simp only [hr] at h
      split at h
      · exact absurd h (by simp)
      · next hne =>
        simp only [Option.some.injEq, Prod.mk.injEq] at h
        obtain ⟨h1, h2⟩ := h
        subst h1
        subst h2
        obtain ⟨hd, hv⟩ := parseCore_sound tag n2 v2 hr
        refine ⟨hd, ?_, hv, ?_, parseCore_greedy tag n2 v2 hr⟩
        · intro h0
          rw [h0] at hne
          exact hne rfl
        · cases htag : tag.any isLineTerm
          · rfl
          · exact absurd htag hterm

/-- Completeness of the skip: a tag admitting no decomposition into a
nonempty, terminator-free name and version around an `@` does not parse. -/
theorem parseTag_none (tag : List Char)
    (h : ¬ ∃ n v : List Char, n ≠ [] ∧ v ≠ [] ∧
      (n ++ '@' :: v).any isLineTerm = false ∧ tag = n ++ '@' :: v) :
    parseTag tag = none := by
  cases hp : parseTag tag with
  | none => rfl
  | some p =>
    obtain ⟨n, v⟩ := p
    obtain ⟨hd, hn, hv, ht, _⟩ := parseTag_sound tag n v hp
    exact absurd ⟨n, v, hn, hv, hd ▸ ht, hd⟩ h

/-- If no package matches on both fields, the linear search fails. -/
theorem find_matchPred_none (n v : List Char) (pkgs : List Pkg)
    (h : ∀ p ∈ pkgs, ¬(p.name = n ∧ p.version = v)) :
    pkgs.find? (matchPred n v) = none := by
  induction pkgs with
  | nil => rfl
  | cons p ps ih =>
    have hp : matchPred n v p = false := by
      have hnp := h p (List.mem_cons_self _ _)
      by_cases h1 : p.name = n
      · by_cases h2 : p.version = v
        · exact absurd ⟨h1, h2⟩ hnp
        · simp [matchPred, h1, h2]
      · simp [matchPred, h1]
    rw [List.find?, hp]
    exact ih (fun q hq => h q (List.mem_cons_of_mem _ hq))

/-- A successful linear search returns a package agreeing on both fields. -/
theorem find_matchPred_some (n v : List Char) (pkgs : List Pkg) (p : Pkg)
    (h : pkgs.find? (matchPred n v) = some p) : p.name = n ∧ p.version = v := by
  have hp : matchPred n v p = true := List.find?_some h
  rw [matchPred, Bool.and_eq_true, beq_iff_eq, beq_iff_eq] at hp
  exact hp

/-- The linear search returns the first structural match. -/
theorem find_matchPred_cons (n v : List Char) (p : Pkg) (ps : List Pkg)
    (h1 : p.name = n) (h2 : p.version = v) :
    (p :: ps).find? (matchPred n v) = some p := by
  have hp : matchPred n v p = true := by simp [matchPred, h1, h2]
  rw [List.find?, hp]

/-- Opening step of the scan: a line matching the version heading switches
the state to collecting and is itself skipped. -/
theorem collectLoop_open (v line : List Char) (rest : List (List Char)) (b : Bool)
    (h : matchVersionHeader line v = true) :
    collectLoop v (line :: rest) b = collectLoop v rest true := by
  simp [collectLoop, h]

/-
Claim theorems.
-/

/-- C1, counterexample: the heading regex `^##\s+\[?V\]?` is not anchored
after the version text, so the heading `## 1.0.0-rc.1`, whose version text
merely begins with the target `1.0.0`, opens collection for `1.0.0` and its
section is returned instead of the fallback. -/
theorem c1_counterexample :
    matchVersionHeader ("## 1.0.0-rc.1".toList) ("1.0.0".toList) = true ∧
    "1.0.0-rc.1".toList ≠ "1.0.0".toList ∧
    extractLines [("## 1.0.0-rc.1".toList), ("rc notes".toList)] ("1.0.0".toList)
      = "rc notes".toList := by
  exact ⟨by decide, by decide, by decide⟩

/-- C1, amended: collection opens exactly at heading-marker lines whose text
after the marker (and optional opening bracket) BEGINS with the target
version: any continuation `s` of the version text still opens collection,
and a line opening collection is always a generic heading line.  The
escaping of regex metacharacters makes the version itself compare
literally, which is what `startsWithL` expresses. -/
theorem c1_amended :
    (∀ v s : List Char,
      matchVersionHeader ('#' :: '#' :: ' ' :: (v ++ s)) v = true) ∧
    (∀ line v : List Char, matchVersionHeader line v = true → isHeading line = true) := by
  constructor
  · intro v s
    have h1 : jsWhitespace ' ' = true := by decide
    simp [matchVersionHeader, headerTail, optBracket, startsWithL_append, h1]
  · exact matchVH_isHeading

/-- C1 witness: instantiates the amended claim at a concrete version and
suffix, and at a concrete bracketed heading line. -/
theorem c1_witness :
    matchVersionHeader ('#' :: '#' :: ' ' :: ("1.0.0".toList ++ "-rc.1".toList))
      ("1.0.0".toList) = true ∧
    isHeading ("## [2.0.0]".toList) = true :=
  ⟨c1_amended.1 ("1.0.0".toList) ("-rc.1".toList),
   c1_amended.2 ("## [2.0.0]".toList) ("2.0.0".toList) (by decide)⟩

/-- C2: extracting `1.0.0` from a document `## 1.0.0`, content, `## 0.9.0`,
content returns exactly the content lines strictly between the two headings
(joined verbatim, then trimmed); neither heading line is included. -/
theorem c2_extraction_boundary (c1 c2 : List (List Char))
    (h1 : ∀ l ∈ c1, '\n' ∉ l ∧ isHeading l = false)
    (h2 : ∀ l ∈ c2, '\n' ∉ l)
    (hne : jsTrim (joinNL c1) ≠ []) :
    extractChangelogForVersion
      (joinNL (("## 1.0.0".toList) :: (c1 ++ ("## 0.9.0".toList) :: c2)))
      ("1.0.0".toList) = jsTrim (joinNL c1) := by
  have hsplit : splitOnNL (joinNL (("## 1.0.0".toList) :: (c1 ++ ("## 0.9.0".toList) :: c2)))
      = ("## 1.0.0".toList) :: (c1 ++ ("## 0.9.0".toList) :: c2) := by
    apply splitOnNL_joinNL
    · simp
    · intro l hl
      rcases List.mem_cons.mp hl with rfl | hl2
      · decide
      · rcases List.mem_append.mp hl2 with hc | hc
        · exact (h1 l hc).1
        · rcases List.mem_cons.mp hc with rfl | hc2
          · decide
          · exact h2 l hc2
  have hcollect : collectLoop ("1.0.0".toList)
      (("## 1.0.0".toList) :: (c1 ++ ("## 0.9.0".toList) :: c2)) false = c1 := by
    rw [collectLoop_open _ _ _ _ (by decide)]
    apply collectLoop_section
    · intro l hl
      exact ⟨matchVH_false l _ (h1 l hl).2, (h1 l hl).2⟩
    · decide
    · decide
  unfold extractChangelogForVersion
  rw [hsplit]
  simp only [extractLines, hcollect]
  rw [if_neg hne]

/-- C2 witness: the concrete document of the end-to-end scenario. -/
theorem c2_witness :
    extractChangelogForVersion
      (joinNL (("## 1.0.0".toList) ::
        ([("Fixed login bug".toList)] ++ ("## 0.9.0".toList) :: [("older".toList)])))
      ("1.0.0".toList) = jsTrim (joinNL [("Fixed login bug".toList)]) :=
  c2_extraction_boundary [("Fixed login bug".toList)] [("older".toList)]
    (by decide) (by decide) (by decide)

/-- C3: a 422 response whose message contains `already_exists` is handled
as the warning branch; any other release-creation error is handled as the
error branch; in both cases the loop result covers every tag and the run
never turns into a non-zero exit because of a per-tag failure. -/
theorem c3_per_tag_failure_policy :
    (∀ m : List Char, containsSub m ("already_exists".toList) = true →
      handleReleaseResult (.err 422 m) = .alreadyExists) ∧
    (∀ (s : Nat) (m : List Char),
      ¬(s = 422 ∧ containsSub m ("already_exists".toList) = true) →
      handleReleaseResult (.err s m) = .failed s m) ∧
    (∀ (tk : List Char) (tags : List (List Char)) (pkgs : List Pkg)
        (cl : List Char → Option (List Char)) (api : Release → ApiResult),
      ∃ outs : List TagOutcome,
        createReleasesRun (some tk) tags pkgs cl api = .ok outs ∧
        outs.length = tags.length) := by
  refine ⟨?_, ?_, ?_⟩
  · intro m h
    simp only [handleReleaseResult, h, Bool.and_true, beq_self_eq_true]
    simp
  · intro s m h
    have hc : (s == 422 && containsSub m ("already_exists".toList)) = false := by
      by_cases hs : s = 422
      · subst hs
        cases hcs : containsSub m ("already_exists".toList)
        · simp
        · exact absurd ⟨rfl, hcs⟩ h
      · simp [hs]
    simp only [handleReleaseResult, hc]
    rw [if_neg (by simp)]
  · intro tk tags pkgs cl api
    exact ⟨tags.map (processTag pkgs cl api), rfl, by simp⟩

/-- C3 witness: concrete conflict, concrete hard failure, and a one-tag run
whose single release call fails yet yields a successful run result. -/
theorem c3_witness :
    handleReleaseResult (.err 422 ("Validation Failed: already_exists".toList))
      = .alreadyExists ∧
    handleReleaseResult (.err 403 ("Forbidden".toList))
      = .failed 403 ("Forbidden".toList) ∧
    ∃ outs : List TagOutcome,
      createReleasesRun (some ("token".toList)) [("pkg@1.0.0".toList)] []
        (fun _ => none) (fun _ => .err 403 ("Forbidden".toList)) = .ok outs ∧
      outs.length = 1 :=
  ⟨c3_per_tag_failure_policy.1 _ (by decide),
   c3_per_tag_failure_policy.2.1 403 _ (by intro hc; exact absurd hc.1 (by decide)),
   c3_per_tag_failure_policy.2.2 ("token".toList) [("pkg@1.0.0".toList)] []
     (fun _ => none) (fun _ => .err 403 ("Forbidden".toList))⟩

/-- C4: `isPrerelease` holds exactly when one of the markers `alpha`,
`beta`, `rc`, `pre` occurs immediately after a hyphen somewhere in the
ASCII-lowercased version string (the case-insensitive, unanchored search of
the source regex), and the three concrete examples of the spec hold. -/
theorem c4_isPrerelease_spec :
    (∀ v : List Char, isPrerelease v = true ↔
      ∃ m : List Char,
        (m = "alpha".toList ∨ m = "beta".toList ∨ m = "rc".toList ∨ m = "pre".toList) ∧
        ∃ s t : List Char, v.map asciiLower = s ++ ('-' :: m) ++ t) ∧
    isPrerelease ("2.0.0".toList) = false ∧
    isPrerelease ("2.0.0-beta.1".toList) = true ∧
    isPrerelease ("2.0.0-rc1".toList) = true := by
  refine ⟨?_, by decide, by decide, by decide⟩
  intro v
  have key : ∀ m : List Char, containsSub (v.map asciiLower) ('-' :: m) = true ↔
      ∃ s t, v.map asciiLower = s ++ ('-' :: m) ++ t := fun m => containsSub_iff _ _
  simp only [isPrerelease, List.any_cons, List.any_nil, Bool.or_false, Bool.or_eq_true, key]
  constructor
  · rintro (h | h | h | h)
    · exact ⟨"alpha".toList, Or.inl rfl, h⟩
    · exact ⟨"beta".toList, Or.inr (Or.inl rfl), h⟩
    · exact ⟨"rc".toList, Or.inr (Or.inr (Or.inl rfl)), h⟩
    · exact ⟨"pre".toList, Or.inr (Or.inr (Or.inr rfl)), h⟩
  · rintro ⟨m, (rfl | rfl | rfl | rfl), h⟩
    · exact Or.inl h
    · exact Or.inr (Or.inl h)
    · exact Or.inr (Or.inr (Or.inl h))
    · exact Or.inr (Or.inr (Or.inr h))

/-- C4 witness: instantiates the characterisation at `2.0.0-beta.1`. -/
theorem c4_witness :
    (∃ m : List Char,
      (m = "alpha".toList ∨ m = "beta".toList ∨ m = "rc".toList ∨ m = "pre".toList) ∧
      ∃ s t : List Char,
        ("2.0.0-beta.1".toList).map asciiLower = s ++ ('-' :: m) ++ t) ∧
    isPrerelease ("2.0.0".toList) = false :=
  ⟨(c4_isPrerelease_spec.1 ("2.0.0-beta.1".toList)).mp (by decide),
   c4_isPrerelease_spec.2.1⟩

/-- The filter/limit pipeline maps an empty tag list to an empty tag
list, whatever the options are. -/
theorem getAllTagsAdvancedTags_nil (f : Option (List Char → Bool))
    (l : Option JsNumber) : getAllTagsAdvancedTags [] f l = [] := by
  cases f <;> cases l <;>
    simp [getAllTagsAdvancedTags, applyFilter, applyLimit]

/-- C5, counterexample: in the advanced tag-enumeration CLI
(`get-tags-advanced.js`) a failing git tag query is swallowed by
`execCommand` into empty output, so the run returns a normal result with
zero tags instead of terminating with exit code 1, and is indistinguishable
from a run whose tag listing is genuinely empty. -/
theorem c5_counterexample :
    (∃ r : AdvResult,
      getAllTagsAdvanced
        { revParse := .ok ("abc123".toList),
          tagList := .error ("fatal: not a git repository".toList),
          pointsAt := fun _ => .ok [] } none none none none = .ok r ∧
      r.allTags = []) ∧
    getAllTagsAdvanced
      { revParse := .ok ("abc123".toList),
        tagList := .error ("fatal: not a git repository".toList),
        pointsAt := fun _ => .ok [] } none none none none =
    getAllTagsAdvanced
      { revParse := .ok ("abc123".toList), tagList := .ok [],
        pointsAt := fun _ => .ok [] } none none none none := by
  exact ⟨⟨_, rfl, rfl⟩, rfl⟩

/-- C5, amended: in the basic tag-enumeration CLI (`get-tags.js`) a failure
of the underlying git query reaches the catch block and terminates the
process with exit code 1, and an empty listing is a success with zero tags;
but in the advanced CLI (`get-tags-advanced.js`) `execCommand` swallows the
failure into empty output, so the same failure yields a normal run with
zero tags — no non-zero exit — identical to the zero-tags case. -/
theorem c5_amended :
    (∀ (env : GitEnv) (ref ev : Option (List Char)) (m : List Char),
      env.tagList = .error m → getAllTags env ref ev = .error 1) ∧
    (∀ (env : GitEnv) (ref ev : Option (List Char)) (m : List Char),
      env.revParse = .error m → getAllTags env ref ev = .error 1) ∧
    (∀ (env : GitEnv) (ref ev : Option (List Char)) (o c m : List Char),
      env.tagList = .ok o → env.revParse = .ok c →
      env.pointsAt (jsTrim c) = .error m → getAllTags env ref ev = .error 1) ∧
    (∀ (env : GitEnv) (ref ev : Option (List Char)) (c o : List Char),
      env.tagList = .ok [] → env.revParse = .ok c →
      env.pointsAt (jsTrim c) = .ok o →
      ∃ r : TagsResult, getAllTags env ref ev = .ok r ∧ r.allTags = []) ∧
    (∀ (env : GitEnvAdv) (ref ev : Option (List Char))
        (filter : Option (List Char → Bool)) (limit : Option JsNumber)
        (m : List Char),
      env.tagList = .error m →
      (∃ r : AdvResult,
        getAllTagsAdvanced env ref ev filter limit = .ok r ∧ r.allTags = []) ∧
      getAllTagsAdvanced env ref ev filter limit =
        getAllTagsAdvanced { env with tagList := .ok [] } ref ev filter limit) := by
  refine ⟨?_, ?_, ?_, ?_, ?_⟩
  · intro env ref ev m h
    simp only [getAllTags, h]
  · intro env ref ev m h
    cases ht : env.tagList with
    | error m2 => simp only [getAllTags, ht]
    | ok o => simp only [getAllTags, ht, h]
  · intro env ref ev o c m h1 h2 h3
    simp only [getAllTags, h1, h2, h3]
  · intro env ref ev c o h1 h2 h3
    refine ⟨{ currentTag := jsOrNone ref, allTags := splitTags [],
              tagsForCurrentCommit := splitTags o, currentCommit := jsTrim c,
              triggeredBy := jsOrUnknown ev }, ?_, ?_⟩
    · simp only [getAllTags, h1, h2, h3]
    · show splitTags [] = []
      decide
  · intro env ref ev filter limit m h
    have hempty : getAllTagsAdvancedTags (splitIfNonEmpty (execCommand env.tagList))
        filter limit = [] := by
      rw [h]
      exact getAllTagsAdvancedTags_nil filter limit
    constructor
    · refine ⟨{ currentTag := jsOrNone ref,
                allTags := getAllTagsAdvancedTags
                  (splitIfNonEmpty (execCommand env.tagList)) filter limit,
                tagsForCurrentCommit := splitIfNonEmpty
                  (execCommand (env.pointsAt (execCommand env.revParse))),
                currentCommit := execCommand env.revParse,
                triggeredBy := jsOrUnknown ev }, rfl, hempty⟩
    · have hsw : execCommand env.tagList = execCommand (.ok ([] : List Char)) := by
        rw [h]
        rfl
      simp only [getAllTagsAdvanced, hsw]

/-- C5 witness: a concrete failing environment exits 1 in the basic CLI, a
concrete empty listing succeeds with zero tags, and a concrete failing tag
query in the advanced CLI still yields a normal zero-tag result. -/
theorem c5_witness :
    getAllTags
      { tagList := .error ("fatal: not a git repository".toList),
        revParse := .ok ("abc123".toList),
        pointsAt := fun _ => .ok [] } none none = .error 1 ∧
    (∃ r : TagsResult,
      getAllTags
        { tagList := .ok [], revParse := .ok ("abc123".toList),
          pointsAt := fun _ => .ok [] } none none = .ok r ∧ r.allTags = []) ∧
    ∃ r : AdvResult,
      getAllTagsAdvanced
        { revParse := .ok ("abc123".toList), tagList := .error ("boom".toList),
          pointsAt := fun _ => .ok [] } none none none none = .ok r ∧
      r.allTags = [] :=
  ⟨c5_amended.1 _ none none _ rfl,
   c5_amended.2.2.2.1 _ none none ("abc123".toList) [] rfl rfl rfl,
   (c5_amended.2.2.2.2 _ none none none none ("boom".toList) rfl).1⟩

/-- C6, counterexample: the tag `a@b@` matches `^(.+)@(.+)$`, but
backtracking on the greedy name group parses it as name `a`, version `b@`
rather than the final-`@` split (name `a@b`, empty version). -/
theorem c6_counterexample :
    parseTag ("a@b@".toList) = some ("a".toList, "b@".toList) ∧
    ("a".toList, "b@".toList) ≠ (("a@b".toList), ([] : List Char)) := by
  exact ⟨by decide, by decide⟩

/-- C6, amended: parsing splits at the last `@` that leaves both a nonempty
name and a nonempty version, so the version contains an `@` at most as its
final character; the tag reassembles from the parts and contains no line
terminators.  A tag admitting no such decomposition yields no parse and the
tag is skipped without any release attempt. -/
theorem c6_amended :
    (∀ tag n v : List Char, parseTag tag = some (n, v) →
      tag = n ++ '@' :: v ∧ n ≠ [] ∧ v ≠ [] ∧
      (∀ a b : List Char, v = a ++ '@' :: b → b = [])) ∧
    (∀ tag : List Char,
      (¬ ∃ n v : List Char, n ≠ [] ∧ v ≠ [] ∧
        (n ++ '@' :: v).any isLineTerm = false ∧ tag = n ++ '@' :: v) →
      parseTag tag = none) ∧
    (∀ (pkgs : List Pkg) (cl : List Char → Option (List Char))
        (api : Release → ApiResult) (tag : List Char),
      parseTag tag = none → processTag pkgs cl api tag = .skippedNoParse) := by
  refine ⟨?_, parseTag_none, ?_⟩
  · intro tag n v h
    obtain ⟨hd, hn, hv, _, hg⟩ := parseTag_sound tag n v h
    exact ⟨hd, hn, hv, hg⟩
  · intro pkgs cl api tag h
    simp only [processTag, h]

/-- C6 witness: a concrete well-formed tag decomposes as parsed, and a
concrete tag with no `@` is skipped. -/
theorem c6_witness :
    "web-app@1.2.0".toList = "web-app".toList ++ '@' :: "1.2.0".toList ∧
    processTag [] (fun _ => none) (fun _ => .ok []) ("no-at-sign".toList)
      = .skippedNoParse :=
  ⟨(c6_amended.1 ("web-app@1.2.0".toList) ("web-app".toList) ("1.2.0".toList)
      (by decide)).1,
   c6_amended.2.2 [] (fun _ => none) (fun _ => .ok []) ("no-at-sign".toList)
     (by decide)⟩

/-- C7: a tag parsing to (name, version) with no workspace package agreeing
on both fields is skipped with the no-package diagnostic, a release is
never attempted for it, and the remaining tags are still processed. -/
theorem c7_unmatched_tag_skipped (pkgs : List Pkg)
    (cl : List Char → Option (List Char)) (api : Release → ApiResult)
    (tag n v : List Char) (ts : List (List Char))
    (hp : parseTag tag = some (n, v))
    (hm : ∀ p ∈ pkgs, ¬(p.name = n ∧ p.version = v)) :
    processTag pkgs cl api tag = .skippedNoPackage n v ∧
    (∀ (rel : Release) (out : ReleaseOutcome),
      processTag pkgs cl api tag ≠ .released rel out) ∧
    (∀ tk : List Char, createReleasesRun (some tk) (tag :: ts) pkgs cl api =
      .ok (.skippedNoPackage n v :: ts.map (processTag pkgs cl api))) := by
  have hf := find_matchPred_none n v pkgs hm
  have hred : processTag pkgs cl api tag = .skippedNoPackage n v := by
    simp only [processTag, hp, hf]
  refine ⟨hred, ?_, ?_⟩
  · intro rel out hcontra
    rw [hred] at hcontra
    exact absurd hcontra (by simp)
  · intro tk
    simp only [createReleasesRun, List.map_cons, hred]

/-- C7 witness: a concrete tag whose package list holds no match. -/
theorem c7_witness :
    processTag
      [{ name := "other".toList, version := "1.0.0".toList,
         dir := "packages/other".toList }]
      (fun _ => none) (fun _ => .ok []) ("web-app@1.2.0".toList)
      = .skippedNoPackage ("web-app".toList) ("1.2.0".toList) :=
  (c7_unmatched_tag_skipped
    [{ name := "other".toList, version := "1.0.0".toList,
       dir := "packages/other".toList }]
    (fun _ => none) (fun _ => .ok []) ("web-app@1.2.0".toList)
    ("web-app".toList) ("1.2.0".toList) [] (by decide) (by decide)).1

/-- C8: when no line opens collection, or the collected text trims to
empty, extraction returns the fallback `Release <version>`, which contains
the requested version; when no changelog document exists at all, the
release body is the default notes `Release <version> of <name>`, which also
contain the requested version. -/
theorem c8_fallback :
    (∀ (lines : List (List Char)) (v : List Char),
      (∀ l ∈ lines, matchVersionHeader l v = false) →
      extractLines lines v = releaseFallback v) ∧
    (∀ (lines : List (List Char)) (v : List Char),
      jsTrim (joinNL (collectLoop v lines false)) = [] →
      extractLines lines v = releaseFallback v) ∧
    (∀ v : List Char, ∃ s : List Char, releaseFallback v = s ++ v) ∧
    (∀ (pkgs : List Pkg) (cl : List Char → Option (List Char))
        (api : Release → ApiResult) (tag n v : List Char) (p : Pkg),
      parseTag tag = some (n, v) → pkgs.find? (matchPred n v) = some p →
      cl p.dir = none →
      (∃ out : ReleaseOutcome, processTag pkgs cl api tag = .released
        { tagName := tag, name := n ++ ' ' :: v, body := defaultNotes n v,
          draft := false, prerelease := isPrerelease v } out) ∧
      (∃ s t : List Char, defaultNotes n v = s ++ v ++ t)) := by
  refine ⟨?_, ?_, ?_, ?_⟩
  · intro lines v h
    have hc := collectLoop_closed v lines h
    simp only [extractLines, hc]
    simp [joinNL, jsTrim]
  · intro lines v h
    simp only [extractLines, h]
    simp
  · intro v
    exact ⟨"Release ".toList, rfl⟩
  · intro pkgs cl api tag n v p hp hf hcl
    have hred : ∃ out : ReleaseOutcome, processTag pkgs cl api tag = .released
        { tagName := tag, name := n ++ ' ' :: v, body := defaultNotes n v,
          draft := false, prerelease := isPrerelease v } out := by
      simp only [processTag, hp, hf, hcl]
      exact ⟨_, rfl⟩
    exact ⟨hred, ⟨"Release ".toList, " of ".toList ++ n, by simp [defaultNotes]⟩⟩

/-- C8 witness: a document with no matching heading falls back for
`1.0.0`, and the fallback ends with the version. -/
theorem c8_witness :
    extractLines [("## 2.0.0".toList), ("stuff".toList)] ("1.0.0".toList)
      = releaseFallback ("1.0.0".toList) ∧
    ∃ s : List Char, releaseFallback ("1.0.0".toList) = s ++ "1.0.0".toList :=
  ⟨c8_fallback.1 [("## 2.0.0".toList), ("stuff".toList)] ("1.0.0".toList)
     (by decide),
   c8_fallback.2.2.1 ("1.0.0".toList)⟩

/-- C9: the package search uses exact string equality on both manifest
fields and returns the first structural match in discovery order; the
created release has display name `<packageName> <version>` (from the tag's
parts), `draft` false, and is keyed by the tag. -/
theorem c9_match_semantics :
    (∀ (n v : List Char) (pkgs : List Pkg) (p : Pkg),
      pkgs.find? (matchPred n v) = some p → p.name = n ∧ p.version = v) ∧
    (∀ (n v : List Char) (p : Pkg) (ps : List Pkg),
      p.name = n → p.version = v → (p :: ps).find? (matchPred n v) = some p) ∧
    (∀ (pkgs : List Pkg) (cl : List Char → Option (List Char))
        (api : Release → ApiResult) (tag n v : List Char) (p : Pkg),
      parseTag tag = some (n, v) → pkgs.find? (matchPred n v) = some p →
      ∃ (rel : Release) (out : ReleaseOutcome),
        processTag pkgs cl api tag = .released rel out ∧
        rel.name = n ++ ' ' :: v ∧ rel.draft = false ∧ rel.tagName = tag) := by
  refine ⟨find_matchPred_some, find_matchPred_cons, ?_⟩
  intro pkgs cl api tag n v p hp hf
  cases hcl : cl p.dir with
  | none =>
    have hred : ∃ out : ReleaseOutcome, processTag pkgs cl api tag = .released
        { tagName := tag, name := n ++ ' ' :: v, body := defaultNotes n v,
          draft := false, prerelease := isPrerelease v } out := by
      simp only [processTag, hp, hf, hcl]
      exact ⟨_, rfl⟩
    obtain ⟨out, hout⟩ := hred
    exact ⟨_, out, hout, rfl, rfl, rfl⟩
  | some content =>
    have hred : ∃ out : ReleaseOutcome, processTag pkgs cl api tag = .released
        { tagName := tag, name := n ++ ' ' :: v,
          body := extractChangelogForVersion content v,
          draft := false, prerelease := isPrerelease v } out := by
      simp only [processTag, hp, hf, hcl]
      exact ⟨_, rfl⟩
    obtain ⟨out, hout⟩ := hred
    exact ⟨_, out, hout, rfl, rfl, rfl⟩

/-- C9 witness: the end-to-end scenario package list; first-match and the
release shape at concrete inputs. -/
theorem c9_witness :
    ([{ name := "web-app".toList, version := "1.2.0".toList,
        dir := "packages/web-app".toList }].find?
      (matchPred ("web-app".toList) ("1.2.0".toList)) =
      some { name := "web-app".toList, version := "1.2.0".toList,
             dir := "packages/web-app".toList }) ∧
    ∃ (rel : Release) (out : ReleaseOutcome),
      processTag
        [{ name := "web-app".toList, version := "1.2.0".toList,
           dir := "packages/web-app".toList }]
        (fun _ => none) (fun _ => .ok ("url".toList)) ("web-app@1.2.0".toList)
        = .released rel out ∧
      rel.name = "web-app".toList ++ ' ' :: "1.2.0".toList ∧
      rel.draft = false ∧ rel.tagName = "web-app@1.2.0".toList :=
  ⟨c9_match_semantics.2.1 ("web-app".toList) ("1.2.0".toList)
     { name := "web-app".toList, version := "1.2.0".toList,
       dir := "packages/web-app".toList } [] rfl rfl,
   c9_match_semantics.2.2
     [{ name := "web-app".toList, version := "1.2.0".toList, dir := "packages/web-app".toList }]
     (fun _ => none) (fun _ => .ok ("url".toList))
     ("web-app@1.2.0".toList) ("web-app".toList) ("1.2.0".toList)
     { name := "web-app".toList, version := "1.2.0".toList, dir := "packages/web-app".toList }
     (by decide) (by decide)⟩

/-- C10: the `--limit` option is ignored when absent, `NaN` (not parseable),
zero or negative, and a positive limit takes the first `n` tags AFTER the
regex filter has been applied. -/
theorem c10_limit_semantics (tags : List (List Char))
    (f : Option (List Char → Bool)) (p : List Char → Bool) :
    getAllTagsAdvancedTags tags f none = applyFilter f tags ∧
    getAllTagsAdvancedTags tags f (some .nan) = applyFilter f tags ∧
    getAllTagsAdvancedTags tags f (some (.int 0)) = applyFilter f tags ∧
    (∀ n : Int, n < 0 →
      getAllTagsAdvancedTags tags f (some (.int n)) = applyFilter f tags) ∧
    (∀ n : Int, 0 < n →
      getAllTagsAdvancedTags tags (some p) (some (.int n)) =
        (tags.filter p).take n.toNat) ∧
    parseIntJs ("abc".toList) = JsNumber.nan := by
  refine ⟨rfl, rfl, ?_, ?_, ?_, by decide⟩
  · simp [getAllTagsAdvancedTags, applyLimit, jsTruthy]
  · intro n hn
    have h0 : ¬(0 < n) := by omega
    have h1 : jsPos (.int n) = false := by simp [jsPos, h0]
    simp [getAllTagsAdvancedTags, applyLimit, h1]
  · intro n hn
    have h1 : jsPos (.int n) = true := by simp [jsPos]; exact hn
    have h2 : jsTruthy (.int n) = true := by
      have hne : n ≠ 0 := by omega
      simp [jsTruthy, hne]
    simp [getAllTagsAdvancedTags, applyLimit, applyFilter, h1, h2, jsToNat]

/-- C10 witness: with three tags, a filter keeping the `lib` tags and limit
1, the result is the first filtered tag; taking first and filtering after
would instead give the empty list. -/
theorem c10_witness :
    getAllTagsAdvancedTags
      [("app@1".toList), ("lib@1".toList), ("lib@2".toList)]
      (some (fun t => startsWithL t ("lib".toList))) (some (.int 1)) =
      ([("app@1".toList), ("lib@1".toList), ("lib@2".toList)].filter
        (fun t => startsWithL t ("lib".toList))).take (Int.toNat 1) ∧
    ([("app@1".toList), ("lib@1".toList), ("lib@2".toList)].filter
        (fun t => startsWithL t ("lib".toList))).take (Int.toNat 1)
      = [("lib@1".toList)] ∧
    (([("app@1".toList), ("lib@1".toList), ("lib@2".toList)].take
        (Int.toNat 1)).filter (fun t => startsWithL t ("lib".toList))) = [] :=
  ⟨(c10_limit_semantics
      [("app@1".toList), ("lib@1".toList), ("lib@2".toList)]
      (some (fun t => startsWithL t ("lib".toList)))
      (fun t => startsWithL t ("lib".toList))).2.2.2.2.1 1 (by decide),
   by decide, by decide⟩
